import Mathlib

/-!
# Verification of the REMI+ tokenizer core (`miditok/tokenizations/remi_plus.py`)

A shallow embedding of the `REMIPlus` class: the event encoder
(`__notes_to_events` and its final `_order`-keyed stable sort), the decoder
(`tokens_to_midi` token scan and finalization), and the token-type graph
(`_create_token_types_graph`), together with theorems checking the
specification's claims about them.

Modelling conventions:
* Python integers are `Int`; Python `//` and `%` (floor division / modulo)
  are `Int.fdiv` and `Int.fmod`.
* Collaborators that live outside this file's source (the parent
  `MIDITokenizer` class helpers such as `_reduce_time_signature` and
  `_token_duration_to_ticks`, and the chord detector) are parameters of the
  embedding.
* Python's in-place stable `list.sort(key=...)` is modelled by
  `List.insertionSort`, which is a stable sort by the same total preorder and
  therefore produces the identical list.
-/

namespace RemiPlus

/-- Modelled from the spec: the default tempo constant `TEMPO` imported from
the external `constants` module (the conventional MIDI default, 120 BPM),
used to seed the decoder's sentinel tempo entry (§4.4). -/
def TEMPO : Int := 120

/-- Modelled from the spec: the default time-signature constant
`TIME_SIGNATURE` imported from the external `constants` module; the spec's
"default 4/4 signature" (§4.4). -/
def TIME_SIGNATURE : Int × Int := (4, 4)

/-! ## Decoder data model (`tokens_to_midi`) -/

/-- A decoded token, keyed by the `Type` part of the wire form `Type_Value`,
carrying the already-parsed `Value` payload (the spec's typed-parse view of
`token.split("_")`). Types the decoder does not branch on are `other`. -/
inductive Tok where
  | bar : Tok
  | rest (beat pos : Int) : Tok
  | position (idx : Int) : Tok
  | tempo (value : Int) : Tok
  | timeSig (numerator denominator : Int) : Tok
  | pitch (value : Int) : Tok
  | velocity (value : Int) : Tok
  | duration (label : String) : Tok
  | program (value : Int) : Tok
  | other : Tok
deriving DecidableEq, Repr

/-- `miditoolkit.Note` as constructed by the decoder:
`Note(vel, pitch, start, end)`. -/
structure DNote where
  velocity : Int
  pitch : Int
  start : Int
  end_ : Int
deriving DecidableEq, Repr

/-- `miditoolkit.Instrument` as constructed by the decoder (`name` omitted:
it is a cosmetic string looked up in the external `MIDI_INSTRUMENTS` table). -/
structure Inst where
  program : Int
  isDrum : Bool
  notes : List DNote
deriving DecidableEq, Repr

/-- `miditoolkit.TempoChange`. -/
structure DTempo where
  tempo : Int
  time : Int
deriving DecidableEq, Repr

/-- `miditoolkit.TimeSignature`. -/
structure DTimeSig where
  numerator : Int
  denominator : Int
  time : Int
deriving DecidableEq, Repr

/-- Parameters of `tokens_to_midi`: the target `time_division`, the
configuration's `max(self.beat_res.values())`, and the parent-class
collaborator `_token_duration_to_ticks` resolving a duration bin label. -/
structure DecCtx where
  timeDivision : Int
  maxBeatRes : Int
  durationToTicks : String → Int

/-- `ticks_per_sample = time_division // max(self.beat_res.values())`. -/
def DecCtx.tps (c : DecCtx) : Int := Int.fdiv c.timeDivision c.maxBeatRes

/-- The decoder's scan state: the `instruments` dict (insertion-ordered
association list keyed by the raw program number, `-1` = drums), the tempo and
time-signature result lists (appended at the end, as Python's `list.append`),
and the cursor variables of the loop. -/
structure DecState where
  instruments : List (Int × Inst)
  tempoChanges : List DTempo
  timeSigChanges : List DTimeSig
  ticksPerBar : Int
  currentTick : Int
  currentBar : Int
  previousNoteEnd : Int
deriving DecidableEq, Repr

/-- Initial decoder state: `tempo_changes = [TempoChange(TEMPO, -1)]` (mock),
`time_signature_changes = [TimeSignature(*TIME_SIGNATURE, 0)]` (mock),
`ticks_per_bar = time_division * TIME_SIGNATURE[0]`, `current_tick = 0`,
`current_bar = -1`, `previous_note_end = 0`. -/
def initDecState (c : DecCtx) : DecState :=
  { instruments := []
    tempoChanges := [⟨TEMPO, -1⟩]
    timeSigChanges := [⟨TIME_SIGNATURE.1, TIME_SIGNATURE.2, 0⟩]
    ticksPerBar := c.timeDivision * TIME_SIGNATURE.1
    currentTick := 0
    currentBar := -1
    previousNoteEnd := 0 }

/-- Python list indexing `l[i]` inside a `try` block: a nonnegative index is
looked up directly, a negative index `i` wraps to `len(l) + i`, and an index
out of range raises `IndexError`, modelled as `none`. -/
def pyGet (l : List Tok) (i : Int) : Option Tok :=
  if 0 ≤ i then l.get? i.toNat
  else if 0 ≤ (l.length : Int) + i then l.get? ((l.length : Int) + i).toNat
  else none

/-- `tempo_changes[-1]` (the list is never empty: it is seeded with the mock
entry and only appended to). -/
def lastTempo (l : List DTempo) : DTempo := l.getLastD ⟨TEMPO, -1⟩

/-- `time_signature_changes[-1]`. -/
def lastTimeSig (l : List DTimeSig) : DTimeSig :=
  l.getLastD ⟨TIME_SIGNATURE.1, TIME_SIGNATURE.2, 0⟩

/-- `instruments[program].notes.append(note)`, creating the
`Instrument(program=0 if program == -1 else program, is_drum=program == -1)`
entry first when the key is absent (Python dict, insertion-ordered). -/
def addNote (instruments : List (Int × Inst)) (prog : Int) (note : DNote) :
    List (Int × Inst) :=
  if instruments.any (fun p => p.1 == prog) then
    instruments.map fun p =>
      if p.1 == prog then (p.1, { p.2 with notes := p.2.notes ++ [note] }) else p
  else
    instruments ++
      [(prog, { program := if prog == -1 then 0 else prog
                isDrum := prog == -1
                notes := [note] })]

/-- One iteration of the decoder's `for ti, token in enumerate(tokens)` loop.
The `Pitch` case mirrors the guarded lookaround
`tokens[ti + 1]`, `tokens[ti + 2]`, `tokens[ti - 1]` inside
`try: ... except IndexError: pass`: any out-of-range access or type mismatch
leaves the state unchanged (`pyGet` carries Python's negative-index wrap). -/
def decodeStep (c : DecCtx) (toks : List Tok) (ti : Nat) (st : DecState) :
    DecState :=
  match toks.getD ti .other with
  | .bar =>
      let bar := st.currentBar + 1
      { st with currentBar := bar, currentTick := bar * st.ticksPerBar }
  | .rest beat pos =>
      let t0 := if st.currentTick < st.previousNoteEnd then st.previousNoteEnd
                else st.currentTick
      let t1 := t0 + beat * c.timeDivision + pos * c.tps
      { st with currentTick := t1, currentBar := Int.fdiv t1 st.ticksPerBar }
  | .position idx =>
      let bar := if st.currentBar = -1 then 0 else st.currentBar
      { st with currentBar := bar
                currentTick := bar * st.ticksPerBar + idx * c.tps }
  | .tempo v =>
      if v ≠ (lastTempo st.tempoChanges).tempo then
        { st with tempoChanges := st.tempoChanges ++ [⟨v, st.currentTick⟩] }
      else st
  | .timeSig num den =>
      let cur := lastTimeSig st.timeSigChanges
      if num ≠ cur.numerator ∧ den ≠ cur.denominator then
        { st with timeSigChanges :=
            st.timeSigChanges ++ [⟨num, den, st.currentTick⟩] }
      else st
  | .pitch p =>
      match pyGet toks ((ti : Int) + 1), pyGet toks ((ti : Int) + 2),
            pyGet toks ((ti : Int) - 1) with
      | some (.velocity v), some (.duration lbl), some (.program prog) =>
          let dur := c.durationToTicks lbl
          let note : DNote := ⟨v, p, st.currentTick, st.currentTick + dur⟩
          { st with instruments := addNote st.instruments prog note
                    previousNoteEnd :=
                      max st.previousNoteEnd (st.currentTick + dur) }
      | _, _, _ => st
  | _ => st

/-- The decoder loop from index `ti` on, running `fuel` more iterations at
most (structural recursion on the fuel; `scanTokens` supplies enough fuel to
visit every index, which makes this exactly the
`for ti, token in enumerate(tokens)` loop). -/
def decodeFrom (c : DecCtx) (toks : List Tok) :
    Nat → Nat → DecState → DecState
  | 0, _, st => st
  | fuel + 1, ti, st =>
      if ti < toks.length then
        decodeFrom c toks fuel (ti + 1) (decodeStep c toks ti st)
      else st

/-- The decoder's full token scan, before finalization. -/
def scanTokens (c : DecCtx) (toks : List Tok) : DecState :=
  decodeFrom c toks toks.length 0 (initDecState c)

/-- Finalization of the tempo list:
`if len(tempo_changes) > 1: del tempo_changes[0]` then
`tempo_changes[0].time = 0` (the retiming of the first entry is
unconditional). -/
def finalizeTempo (l : List DTempo) : List DTempo :=
  let l1 := if 1 < l.length then l.drop 1 else l
  match l1 with
  | [] => []
  | x :: r => { x with time := 0 } :: r

/-- Finalization of the time-signature list (same shape). -/
def finalizeTimeSig (l : List DTimeSig) : List DTimeSig :=
  let l1 := if 1 < l.length then l.drop 1 else l
  match l1 with
  | [] => []
  | x :: r => { x with time := 0 } :: r

/-- The tempo timeline assigned to `midi.tempo_changes` by `tokens_to_midi`. -/
def decodedTempoChanges (c : DecCtx) (toks : List Tok) : List DTempo :=
  finalizeTempo (scanTokens c toks).tempoChanges

/-- The time-signature timeline assigned to `midi.time_signature_changes`. -/
def decodedTimeSigChanges (c : DecCtx) (toks : List Tok) : List DTimeSig :=
  finalizeTimeSig (scanTokens c toks).timeSigChanges

/-- Python `max(l)` on a list: raises `ValueError` on the empty list,
modelled as `none`. -/
def pyMax (l : List Int) : Option Int :=
  match l with
  | [] => none
  | x :: r => some (r.foldl max x)

/-- The `miditoolkit.MidiFile` result of `tokens_to_midi`. -/
structure MidiOut where
  instruments : List Inst
  tempoChanges : List DTempo
  timeSigChanges : List DTimeSig
  maxTick : Int
deriving DecidableEq, Repr

/-- `tokens_to_midi`: scan, finalize the tempo/time-signature lists, then set
`midi.max_tick = max([max([note.end ...]) if len(track.notes) > 0 else 0
for track in midi.instruments])`.  The outer `max` is applied to a list
comprehension over the instruments and raises `ValueError` (modelled `none`)
when no instrument was created. -/
def tokensToMidi (c : DecCtx) (toks : List Tok) : Option MidiOut :=
  let st := scanTokens c toks
  let tempos := finalizeTempo st.tempoChanges
  let sigs := finalizeTimeSig st.timeSigChanges
  let insts := st.instruments.map (·.2)
  match pyMax (insts.map fun tr =>
      match pyMax (tr.notes.map (·.end_)) with
      | some m => m
      | none => 0) with
  | some mt => some ⟨insts, tempos, sigs, mt⟩
  | none => none

/-- Total number of decoded notes across all instrument buckets. -/
def totalNotes (st : DecState) : Nat :=
  (st.instruments.map fun p => p.2.notes.length).sum

/-! ## Token-type graph (`_create_token_types_graph`) -/

/-- Python dict assignment `d[k] = v`: replace in place when the key is
present (keeping its position), append otherwise. -/
def dictSet (d : List (String × List String)) (k : String) (v : List String) :
    List (String × List String) :=
  if d.any (fun p => p.1 == k) then
    d.map fun p => if p.1 == k then (k, v) else p
  else d ++ [(k, v)]

/-- Python `d[k] += extra` on an existing entry. -/
def dictAppendTo (d : List (String × List String)) (k : String)
    (extra : List String) : List (String × List String) :=
  d.map fun p => if p.1 == k then (p.1, p.2 ++ extra) else p

/-- Dict lookup; the empty list stands for an absent key. -/
def dictGet (d : List (String × List String)) (k : String) : List String :=
  ((d.find? (fun p => p.1 == k)).map (·.2)).getD []

/-- `_create_token_types_graph`, statement for statement.  Note that with
`TimeSignature` enabled the assignment `dic["Bar"] = ["TimeSig", "Bar"]`
overwrites the base entry `dic["Bar"] = ["Position", "Bar"]`. -/
def createTokenTypesGraph (useTimeSignature useChord useTempo : Bool) :
    List (String × List String) :=
  let d : List (String × List String) := []
  let d := dictSet d "Bar" ["Position", "Bar"]
  let d := dictSet d "Position" ["Program"]
  let d := dictSet d "Program" ["Pitch"]
  let d := dictSet d "Pitch" ["Velocity"]
  let d := dictSet d "Velocity" ["Duration"]
  let d := dictSet d "Duration" ["Program", "Position", "Bar"]
  let d :=
    if useTimeSignature then
      let d := dictSet d "Bar" ["TimeSig", "Bar"]
      dictSet d "TimeSig" ["Position"]
    else d
  let d :=
    if useChord then
      let d := dictSet d "Chord" ["Position"]
      dictAppendTo d "Position" ["Chord"]
    else d
  let d :=
    if useTempo then
      let d := dictSet d "Tempo" ["Position"]
      dictAppendTo d "Position" ["Tempo"]
    else d
  d

/-! ## Duration binning (`np.argmin`) -/

/-- `np.argmin`: the least index attaining the minimum of the list (numpy
returns the first occurrence of the minimum); `0` on the empty list, on which
numpy raises. -/
def npArgmin : List Int → Nat
  | [] => 0
  | [_] => 0
  | v :: w :: rest =>
      let j := npArgmin (w :: rest)
      if v ≤ (w :: rest).getD j 0 then 0 else j + 1

/-- `index = np.argmin(np.abs(dur_bins - duration))`: the index of the
duration bin closest in ticks to `d`, earliest bin on ties. -/
def durIndex (durBins : List Int) (d : Int) : Nat :=
  npArgmin (durBins.map fun b => |b - d|)

/-! ## Encoder data model (`__notes_to_events`) -/

/-- A `miditok.classes.Event`: `type`, `value`, `time`, `desc`.  Values and
descriptions are modelled as strings (Python stores heterogeneous values and
formats them into the token string; the sort and the claims only inspect
`type`, `time` and the two anchor descriptions). -/
structure Event where
  type : String
  value : String
  time : Int
  desc : String
deriving DecidableEq, Repr

/-- `REMIPlus._order`: the tie-break rank of an event. -/
def orderOf (x : Event) : Nat :=
  if x.type = "Bar" then 0
  else if x.type = "TimeSig" then 1
  else if x.type = "Position" ∧ x.desc = "TempoPosition" then 2
  else if x.type = "Tempo" then 3
  else if x.type = "Position" ∧ x.desc = "ChordPosition" then 4
  else if x.type = "Chord" then 5
  else if x.type = "Rest" then 7
  else 8

/-- The sort key comparison `(x.time, _order(x))`, Python tuple order. -/
def evLe (a b : Event) : Prop :=
  a.time < b.time ∨ (a.time = b.time ∧ orderOf a ≤ orderOf b)

instance : DecidableRel evLe := fun a b => by
  unfold evLe; infer_instance

instance : IsTotal Event evLe where
  total a b := by
    unfold evLe
    rcases lt_trichotomy a.time b.time with h | h | h
    · exact Or.inl (Or.inl h)
    · rcases Nat.le_total (orderOf a) (orderOf b) with h2 | h2
      · exact Or.inl (Or.inr ⟨h, h2⟩)
      · exact Or.inr (Or.inr ⟨h.symm, h2⟩)
    · exact Or.inr (Or.inl h)

instance : IsTrans Event evLe where
  trans a b c hab hbc := by
    unfold evLe at *
    rcases hab with h1 | ⟨e1, o1⟩ <;> rcases hbc with h2 | ⟨e2, o2⟩
    · exact Or.inl (h1.trans h2)
    · exact Or.inl (e2 ▸ h1)
    · exact Or.inl (e1 ▸ h2)
    · exact Or.inr ⟨e1.trans e2, o1.trans o2⟩

/-- An input note (`miditoolkit.Note`). -/
structure NoteIn where
  pitch : Int
  velocity : Int
  start : Int
  end_ : Int
deriving DecidableEq, Repr

/-- One element of `notes_with_program`: a note with its track's
`(program, is_drum)`. -/
structure NoteWP where
  note : NoteIn
  program : Int
  isDrum : Bool
deriving DecidableEq, Repr

/-- A tempo change of the source MIDI metadata. -/
structure TempoEv where
  tempo : Int
  time : Int
deriving DecidableEq, Repr

/-- A time-signature change of the source MIDI metadata. -/
structure TimeSigEv where
  numerator : Int
  denominator : Int
  time : Int
deriving DecidableEq, Repr

/-- The encoder's inputs: `_current_midi_metadata` (`time_division`,
`tempo_changes`, `time_sig_changes`), the configuration
(`ticks_per_sample = time_division / max(beat_res.values())`, feature flags,
`num_bars`), the duration-bin table (`_durations_ticks` with the
`self.durations` labels already joined by dots), and the parent-class
collaborator `_reduce_time_signature`. -/
structure EncCtx where
  timeDivision : Int
  ticksPerSample : Int
  tempoChanges : List TempoEv
  timeSigChanges : List TimeSigEv
  useTimeSignature : Bool
  useTempo : Bool
  numBars : Bool
  durBins : List Int
  durLabels : List String
  reduceTimeSig : Int × Int → Int × Int

/-- The scan state threaded through the note loop of `__notes_to_events`. -/
structure EncState where
  previousTick : Int
  previousNoteEnd : Int
  currentBar : Int
  ticksPerBar : Int
  tempoIdx : Nat
  currentTempo : Int
  tsIdx : Nat
  tsTick : Int
  tsBar : Int
  currentTS : Int × Int

/-- Initial encoder state (`previous_tick = -1`, `current_bar = -1`,
`ticks_per_bar = time_division * 4`,
`previous_note_end = notes_with_program[0][0].start + 1`, cursors at the
first metadata entries; the metadata lists are guaranteed nonempty by the
caller's preprocessing, the defaults are never read on real inputs). -/
def initEncState (ctx : EncCtx) (notes : List NoteWP) : EncState :=
  let c0 := ctx.timeSigChanges.headD ⟨4, 4, 0⟩
  { previousTick := -1
    previousNoteEnd := (notes.headD ⟨⟨0, 0, 0, 0⟩, 0, false⟩).note.start + 1
    currentBar := -1
    ticksPerBar := ctx.timeDivision * 4
    tempoIdx := 0
    currentTempo := (ctx.tempoChanges.headD ⟨0, 0⟩).tempo
    tsIdx := 0
    tsTick := 0
    tsBar := 0
    currentTS := ctx.reduceTimeSig (c0.numerator, c0.denominator) }

/-- The run of catch-up `Bar` events:
`for i in range(nb_new_bars): events.append(Event("Bar", ...))`. -/
def barEvents (numBars : Bool) (currentBar : Int) (tpb : Int) (nb : Int) :
    List Event :=
  (List.range nb.toNat).map fun (i : Nat) =>
    { type := "Bar"
      value := if numBars then toString (currentBar + (i : Int) + 1) else "None"
      time := (currentBar + (i : Int) + 1) * tpb
      desc := "0" }

/-- The cursor sub-state of the time-signature catch-up loop. -/
structure TsScan where
  sig : Int × Int
  tsTick : Int
  tsBar : Int
  tpb : Int
  idx : Nat

/-- The loop over `time_sig_changes[current_time_sig_idx + 1:]`: adopt every
change with `time <= note.start` (recomputing `ticks_per_bar`), break at the
first later one.  `current_time_sig_bar` is advanced with the pre-update
`ticks_per_bar`, exactly as in the source. -/
def tsAdvance (td : Int) (reduce : Int × Int → Int × Int) (start : Int) :
    List TimeSigEv → TsScan → TsScan
  | [], s => s
  | c :: restChanges, s =>
      if c.time ≤ start then
        let sig := reduce (c.numerator, c.denominator)
        tsAdvance td reduce start restChanges
          { sig := sig
            tsTick := c.time
            tsBar := s.tsBar + Int.fdiv (c.time - s.tsTick) s.tpb
            tpb := td * sig.1
            idx := s.idx + 1 }
      else s

/-- The loop over `tempo_changes[current_tempo_idx + 1:]`: adopt every change
with `time <= note.start`, break at the first later one. -/
def tempoAdvance (start : Int) : List TempoEv → Int × Nat → Int × Nat
  | [], p => p
  | c :: restChanges, (cur, idx) =>
      if c.time ≤ start then tempoAdvance start restChanges (c.tempo, idx + 1)
      else (cur, idx)

/-- `int((note.start % ticks_per_bar) / ticks_per_sample)` (exact when
`ticks_per_sample` divides `time_division`, as the decoder asserts). -/
def posIndex (start tpb tps : Int) : Int := Int.fdiv (Int.fmod start tpb) tps

/-- The five note events appended for every note: its own `Position`
(desc `"NotePosition"` — not a tempo/chord anchor), then `Program`, `Pitch`,
`Velocity`, and the `Duration` naming the `np.argmin`-nearest bin. -/
def encNoteBody (ctx : EncCtx) (tpb : Int) (n : NoteWP) : List Event :=
  let duration := n.note.end_ - n.note.start
  [ { type := "Position", value := toString (posIndex n.note.start tpb ctx.ticksPerSample)
      time := n.note.start, desc := "NotePosition" }
    , { type := "Program", value := toString (if n.isDrum then (-1 : Int) else n.program)
        time := n.note.start, desc := toString n.note.pitch }
    , { type := "Pitch", value := toString n.note.pitch
        time := n.note.start, desc := toString n.note.pitch }
    , { type := "Velocity", value := toString n.note.velocity
        time := n.note.start, desc := toString n.note.velocity }
    , { type := "Duration"
        value := ctx.durLabels.getD (durIndex ctx.durBins duration) ""
        time := n.note.start, desc := toString duration ++ " ticks" } ]

/-- One iteration of the note loop: on a new time step
(`note.start != previous_tick`) emit the catch-up `Bar` run, then (flagged)
the `TimeSig` and `Position`/`Tempo` anchors gated by `nb_new_bars > 0`,
then always the five note events.  Returns the events appended by this
iteration and the updated state. -/
def encStep (ctx : EncCtx) (st : EncState) (n : NoteWP) :
    List Event × EncState :=
  if n.note.start ≠ st.previousTick then
    let nb : Int := Int.fdiv n.note.start st.ticksPerBar - st.currentBar
    let bars := barEvents ctx.numBars st.currentBar st.ticksPerBar nb
    let st1 := { st with currentBar := st.currentBar + nb }
    let sigStep :=
      if ctx.useTimeSignature then
        let s := tsAdvance ctx.timeDivision ctx.reduceTimeSig n.note.start
            (ctx.timeSigChanges.drop (st1.tsIdx + 1))
            { sig := st1.currentTS, tsTick := st1.tsTick, tsBar := st1.tsBar
              tpb := st1.ticksPerBar, idx := st1.tsIdx }
        let st2 := { st1 with currentTS := s.sig, tsTick := s.tsTick
                              tsBar := s.tsBar, ticksPerBar := s.tpb
                              tsIdx := s.idx }
        if nb > 0 then
          ([{ type := "TimeSig"
              value := toString s.sig.1 ++ "/" ++ toString s.sig.2
              time := n.note.start, desc := "None" }], st2)
        else ([], st2)
      else ([], st1)
    let st2 := sigStep.2
    let tempoStep :=
      if ctx.useTempo then
        let p := tempoAdvance n.note.start
            (ctx.tempoChanges.drop (st2.tempoIdx + 1))
            (st2.currentTempo, st2.tempoIdx)
        let st3 := { st2 with currentTempo := p.1, tempoIdx := p.2 }
        if nb > 0 then
          ([{ type := "Position"
              value := toString (posIndex n.note.start st3.ticksPerBar ctx.ticksPerSample)
              time := n.note.start, desc := "TempoPosition" }
            , { type := "Tempo", value := toString p.1
                time := n.note.start, desc := toString n.note.start }], st3)
        else ([], st3)
      else ([], st2)
    let st3 := tempoStep.2
    let st4 := { st3 with previousTick := n.note.start }
    (bars ++ sigStep.1 ++ tempoStep.1 ++ encNoteBody ctx st4.ticksPerBar n,
     { st4 with previousNoteEnd := max st4.previousNoteEnd n.note.end_ })
  else
    (encNoteBody ctx st.ticksPerBar n,
     { st with previousNoteEnd := max st.previousNoteEnd n.note.end_ })

/-- The note loop, accumulating the appended events in order. -/
def encSteps (ctx : EncCtx) : List NoteWP → EncState → List Event × EncState
  | [], st => ([], st)
  | n :: restNotes, st =>
      let step := encStep ctx st n
      let further := encSteps ctx restNotes step.2
      (step.1 ++ further.1, further.2)

/-- The event list of `__notes_to_events` before the final sort: the note
loop's events, then — when chord detection ran (`chord_results is not None`) —
one chord-anchored `Position` per chord event (computed with the final
`ticks_per_bar`) followed by the chord events themselves. -/
def rawEvents (ctx : EncCtx) (notes : List NoteWP)
    (chordResults : Option (List Event)) : List Event :=
  let run := encSteps ctx notes (initEncState ctx notes)
  match chordResults with
  | none => run.1
  | some cl =>
      run.1 ++
        cl.map (fun c =>
          { type := "Position"
            value := toString (posIndex c.time run.2.ticksPerBar ctx.ticksPerSample)
            time := c.time, desc := "ChordPosition" }) ++
        cl

/-- `__notes_to_events`: the constructed events, stably sorted by
`(time, _order)` (`events.sort(key=lambda x: (x.time, self._order(x)))`). -/
def notesToEvents (ctx : EncCtx) (notes : List NoteWP)
    (chordResults : Option (List Event)) : List Event :=
  List.insertionSort evLe (rawEvents ctx notes chordResults)

/-! ## Token-class tests and value projections used by the claims -/

/-- Whether a token is a `Position` token. -/
def Tok.isPos : Tok → Bool
  | .position _ => true
  | _ => false

/-- Whether a token is a `Rest` token. -/
def Tok.isRest : Tok → Bool
  | .rest _ _ => true
  | _ => false

/-- The values of the `Tempo` tokens of a sequence, in order. -/
def tempoValues (toks : List Tok) : List Int :=
  toks.filterMap fun t =>
    match t with
    | .tempo v => some v
    | _ => none

/-! ## Concrete sample inputs used by counterexamples and witnesses -/

/-- A concrete decode context: `time_division = 8`,
`max(beat_res.values()) = 2` (so `ticks_per_sample = 4`), and a constant
duration-bin resolver. -/
def sampleDecCtx : DecCtx := ⟨8, 2, fun _ => 4⟩

/-- Token sequence with three pairwise-distinct `Tempo` tokens whose
anchoring `Position` tokens move `current_tick` backwards, plus one complete
note run. -/
def c4Toks : List Tok :=
  [.position 10, .tempo 130, .position 4, .tempo 140, .position 2,
   .tempo 150, .program 0, .pitch 60, .velocity 5, .duration "q"]

/-- A `Pitch` token at index `0` whose sequence ends with a `Program` token:
Python's `tokens[ti - 1]` at `ti = 0` reads that final token. -/
def c5Toks : List Tok := [.pitch 60, .velocity 100, .duration "q", .program 5]

/-- A concrete encoder context with every optional family disabled:
`time_division = 8`, `ticks_per_sample = 4`, a single 120-BPM tempo and a
single 4/4 time signature at tick 0, `num_bars` configured. -/
def ctxBase : EncCtx :=
  ⟨8, 4, [⟨120, 0⟩], [⟨4, 4, 0⟩], false, false, true, [4, 8], ["d1", "d2"], id⟩

/-- A note starting exactly at the start of bar 1 (`ticks_per_bar = 32`). -/
def noteBar1 : NoteWP := ⟨⟨60, 100, 32, 36⟩, 3, false⟩

/-- The encoder context `ctxBase` with `TimeSignature` and `Tempo` (and
chords) enabled. -/
def ctxFull : EncCtx :=
  ⟨8, 4, [⟨120, 0⟩], [⟨4, 4, 0⟩], true, true, true, [4, 8], ["d1", "d2"], id⟩

/-- A mid-scan encoder state: previous time step at tick 0 of bar 0,
`ticks_per_bar = 32`. -/
def stMid : EncState := ⟨0, 1, 0, 32, 0, 120, 0, 0, 0, (4, 4)⟩

/-- A note strictly inside bar 0 (start 5), at a new time step that crosses
no bar boundary. -/
def noteMid : NoteWP := ⟨⟨62, 90, 5, 9⟩, 2, false⟩

/-- A tempo-anchored `Position` event and a `Tempo` event at the same tick,
as emitted by the encoder. -/
def evTP : Event := ⟨"Position", "0", 7, "TempoPosition"⟩

/-- See `evTP`. -/
def evTm : Event := ⟨"Tempo", "120", 7, "33"⟩

/-- Encoder context with duration bins `[1, 2, 4]`: tick length 3 is at
distance 1 from both bin 1 and bin 2. -/
def ctx9 : EncCtx :=
  ⟨8, 4, [⟨120, 0⟩], [⟨4, 4, 0⟩], false, false, true, [1, 2, 4],
   ["a", "b", "c"], id⟩

/-- A note of duration 3 ticks. -/
def note9 : NoteWP := ⟨⟨60, 100, 0, 3⟩, 0, false⟩

/-! ## Helper lemmas -/

theorem decodeStep_tempo_mono (c : DecCtx) (toks : List Tok) (ti : Nat)
    (st : DecState) :
    ∃ t, (decodeStep c toks ti st).tempoChanges = st.tempoChanges ++ t := by
  unfold decodeStep
  cases htok : toks.getD ti Tok.other
  case tempo v =>
    by_cases h : v ≠ (lastTempo st.tempoChanges).tempo
    · exact ⟨[⟨v, st.currentTick⟩], by simp [h]⟩
    · exact ⟨[], by simp [h]⟩
  case timeSig nu de =>
    by_cases h : nu ≠ (lastTimeSig st.timeSigChanges).numerator ∧
        de ≠ (lastTimeSig st.timeSigChanges).denominator
    · exact ⟨[], by simp [h]⟩
    · exact ⟨[], by simp [h]⟩
  case pitch p =>
    refine ⟨[], ?_⟩
    rw [List.append_nil]
    dsimp only
    split <;> rfl
  all_goals exact ⟨[], by simp⟩

theorem decodeStep_timeSig_mono (c : DecCtx) (toks : List Tok) (ti : Nat)
    (st : DecState) :
    ∃ t, (decodeStep c toks ti st).timeSigChanges = st.timeSigChanges ++ t := by
  unfold decodeStep
  cases htok : toks.getD ti Tok.other
  case tempo v =>
    by_cases h : v ≠ (lastTempo st.tempoChanges).tempo
    · exact ⟨[], by simp [h]⟩
    · exact ⟨[], by simp [h]⟩
  case timeSig nu de =>
    by_cases h : nu ≠ (lastTimeSig st.timeSigChanges).numerator ∧
        de ≠ (lastTimeSig st.timeSigChanges).denominator
    · exact ⟨[⟨nu, de, st.currentTick⟩], by simp [h]⟩
    · exact ⟨[], by simp [h]⟩
  case pitch p =>
    refine ⟨[], ?_⟩
    rw [List.append_nil]
    dsimp only
    split <;> rfl
  all_goals exact ⟨[], by simp⟩

theorem decodeFrom_tempo_mono (c : DecCtx) (toks : List Tok) :
    ∀ fuel ti st,
      ∃ t, (decodeFrom c toks fuel ti st).tempoChanges = st.tempoChanges ++ t := by
  intro fuel
  induction fuel with
  | zero => exact fun ti st => ⟨[], by simp [decodeFrom]⟩
  | succ n IH =>
      intro ti st
      unfold decodeFrom
      split
      · obtain ⟨t1, h1⟩ := decodeStep_tempo_mono c toks ti st
        obtain ⟨t2, h2⟩ := IH (ti + 1) (decodeStep c toks ti st)
        exact ⟨t1 ++ t2, by rw [h2, h1, List.append_assoc]⟩
      · exact ⟨[], by simp⟩

theorem decodeFrom_timeSig_mono (c : DecCtx) (toks : List Tok) :
    ∀ fuel ti st,
      ∃ t, (decodeFrom c toks fuel ti st).timeSigChanges
        = st.timeSigChanges ++ t := by
  intro fuel
  induction fuel with
  | zero => exact fun ti st => ⟨[], by simp [decodeFrom]⟩
  | succ n IH =>
      intro ti st
      unfold decodeFrom
      split
      · obtain ⟨t1, h1⟩ := decodeStep_timeSig_mono c toks ti st
        obtain ⟨t2, h2⟩ := IH (ti + 1) (decodeStep c toks ti st)
        exact ⟨t1 ++ t2, by rw [h2, h1, List.append_assoc]⟩
      · exact ⟨[], by simp⟩

theorem scanTokens_tempo_shape (c : DecCtx) (toks : List Tok) :
    ∃ t, (scanTokens c toks).tempoChanges = ⟨TEMPO, -1⟩ :: t := by
  obtain ⟨t, h⟩ := decodeFrom_tempo_mono c toks toks.length 0 (initDecState c)
  exact ⟨t, by simpa [scanTokens, initDecState] using h⟩

theorem scanTokens_timeSig_shape (c : DecCtx) (toks : List Tok) :
    ∃ t, (scanTokens c toks).timeSigChanges
      = ⟨TIME_SIGNATURE.1, TIME_SIGNATURE.2, 0⟩ :: t := by
  obtain ⟨t, h⟩ := decodeFrom_timeSig_mono c toks toks.length 0 (initDecState c)
  exact ⟨t, by simpa [scanTokens, initDecState] using h⟩

theorem finalizeTempo_spec (l : List DTempo) (h : l ≠ []) :
    ((finalizeTempo l).map (·.time)).head? = some 0 ∧
    (finalizeTempo l).length = max 1 (l.length - 1) ∧
    (finalizeTempo l).tail = l.drop 2 := by
  match l with
  | [x] => simp [finalizeTempo]
  | x :: y :: r =>
      refine ⟨?_, ?_, ?_⟩ <;>
        simp [finalizeTempo, Nat.lt_add_right, show 1 < r.length + 1 + 1 by omega]

theorem finalizeTimeSig_spec (l : List DTimeSig) (h : l ≠ []) :
    ((finalizeTimeSig l).map (·.time)).head? = some 0 ∧
    (finalizeTimeSig l).length = max 1 (l.length - 1) ∧
    (finalizeTimeSig l).tail = l.drop 2 := by
  match l with
  | [x] => simp [finalizeTimeSig]
  | x :: y :: r =>
      refine ⟨?_, ?_, ?_⟩ <;>
        simp [finalizeTimeSig, Nat.lt_add_right, show 1 < r.length + 1 + 1 by omega]

theorem getD_map_of_lt (l : List Int) (f : Int → Int) (i : Nat)
    (hi : i < l.length) : (l.map f).getD i 0 = f (l.getD i 0) := by
  rw [List.getD_eq_getElem?_getD, List.getD_eq_getElem?_getD,
    List.getElem?_map, List.getElem?_eq_getElem hi]
  rfl

theorem npArgmin_spec :
    ∀ l : List Int, l ≠ [] →
      npArgmin l < l.length ∧
      ∀ i, i < l.length →
        l.getD (npArgmin l) 0 ≤ l.getD i 0 ∧
        (l.getD i 0 = l.getD (npArgmin l) 0 → npArgmin l ≤ i)
  | [v], _ => by
      refine ⟨by simp [npArgmin], ?_⟩
      intro i hi
      have h0 : i = 0 := by simpa using Nat.lt_one_iff.mp (by simpa using hi)
      subst h0
      exact ⟨le_refl _, fun _ => le_refl _⟩
  | v :: w :: rest, _ => by
      obtain ⟨IH1, IH2⟩ := npArgmin_spec (w :: rest) (by simp)
      by_cases hv : v ≤ (w :: rest).getD (npArgmin (w :: rest)) 0
      · have hdef : npArgmin (v :: w :: rest) = 0 := by
          simp only [npArgmin]
          rw [if_pos hv]
        rw [hdef]
        refine ⟨by simp, ?_⟩
        intro i hi
        cases i with
        | zero => exact ⟨le_refl _, fun _ => Nat.zero_le _⟩
        | succ k =>
            have hk : k < (w :: rest).length := by simpa using hi
            refine ⟨?_, fun _ => Nat.zero_le _⟩
            calc (v :: w :: rest).getD 0 0 = v := rfl
              _ ≤ (w :: rest).getD (npArgmin (w :: rest)) 0 := hv
              _ ≤ (w :: rest).getD k 0 := (IH2 k hk).1
              _ = (v :: w :: rest).getD (k + 1) 0 := by simp
      · have hlt : (w :: rest).getD (npArgmin (w :: rest)) 0 < v := not_le.mp hv
        have hdef : npArgmin (v :: w :: rest) = npArgmin (w :: rest) + 1 := by
          simp only [npArgmin]
          rw [if_neg hv]
        have hg : (v :: w :: rest).getD (npArgmin (w :: rest) + 1) 0
            = (w :: rest).getD (npArgmin (w :: rest)) 0 := by simp
        rw [hdef]
        refine ⟨by simpa using Nat.succ_lt_succ IH1, ?_⟩
        intro i hi
        cases i with
        | zero =>
            refine ⟨?_, ?_⟩
            · rw [hg]; exact le_of_lt hlt
            · intro he
              rw [hg] at he
              exact absurd he.symm (ne_of_lt hlt)
        | succ k =>
            have hk : k < (w :: rest).length := by simpa using hi
            obtain ⟨hmin, htie⟩ := IH2 k hk
            refine ⟨?_, ?_⟩
            · rw [hg]
              simpa using hmin
            · intro he
              rw [hg] at he
              exact Nat.succ_le_succ (htie (by simpa using he))

theorem sum_map_update (prog : Int) (note : DNote) :
    ∀ insts : List (Int × Inst),
      (insts.map (·.1)).Nodup →
      insts.any (fun p => p.1 == prog) = true →
      (((insts.map fun p =>
          if p.1 == prog then (p.1, { p.2 with notes := p.2.notes ++ [note] })
          else p).map fun p => p.2.notes.length).sum
        = ((insts.map fun p => p.2.notes.length)).sum + 1)
  | [], _, ha => by simp at ha
  | q :: t, hnd, ha => by
      rw [List.map_cons] at hnd
      by_cases hq : q.1 == prog
      · have hqe : q.1 = prog := by simpa using hq
        have htail : ∀ r ∈ t, (r.1 == prog) = false := by
          intro r hr
          have hne : q.1 ≠ r.1 := by
            have := (List.pairwise_cons.mp hnd).1 r.1 (List.mem_map_of_mem _ hr)
            simpa using this
          simp only [beq_eq_false_iff_ne, ne_eq]
          exact fun hre => hne (by rw [hqe, hre])
        have hmap : (t.map fun p =>
            if p.1 == prog then (p.1, { p.2 with notes := p.2.notes ++ [note] })
            else p) = t := by
          conv_rhs => rw [← List.map_id t]
          exact List.map_congr_left fun r hr => by simp [htail r hr]
        simp only [List.map_cons, List.sum_cons, hmap]
        rw [if_pos hq]
        simp only [List.length_append, List.length_cons, List.length_nil]
        omega
      · have hnd2 : (t.map (·.1)).Nodup := (List.pairwise_cons.mp hnd).2
        have ha2 : t.any (fun p => p.1 == prog) = true := by
          rcases List.any_eq_true.mp ha with ⟨r, hr, hrp⟩
          rcases List.mem_cons.mp hr with hr | hr
          · exact absurd (by simpa [hr] using hrp) (by simpa using hq)
          · exact List.any_eq_true.mpr ⟨r, hr, hrp⟩
        have IH := sum_map_update prog note t hnd2 ha2
        simp only [List.map_cons, List.sum_cons, IH]
        rw [if_neg hq]
        omega

theorem sumNotes_addNote (insts : List (Int × Inst)) (prog : Int)
    (note : DNote) (hnd : (insts.map (·.1)).Nodup) :
    ((addNote insts prog note).map fun p => p.2.notes.length).sum
      = ((insts.map fun p => p.2.notes.length)).sum + 1 := by
  unfold addNote
  by_cases hmem : insts.any (fun p => p.1 == prog)
  · rw [if_pos hmem]
    exact sum_map_update prog note insts hnd hmem
  · rw [if_neg hmem]
    simp

/-! ## Claims -/

/-- **C1** (code bug).  The claim — backed by the spec — requires a new
`TimeSignatureChange` whenever the parsed pair differs from the last recorded
one in *either* component.  The code's condition is
`num != last.numerator and den != last.denominator`: both components must
differ.  Decoding `TimeSig_3/4` with the default 4/4 recorded drops the
change entirely (the common numerator-only change), while `TimeSig_3/8`
(both components differ) is appended.  The parallel `Tempo` branch appends on
any difference, and the spec's replay property (§8) requires the same here,
so the `and` is a slip for `or`. -/
theorem claim_c1_failing_eval :
    decodedTimeSigChanges sampleDecCtx [.timeSig 3 4] = [⟨4, 4, 0⟩] ∧
    decodedTimeSigChanges sampleDecCtx [.timeSig 3 8] = [⟨3, 8, 0⟩] := by
  exact ⟨by decide, by decide⟩

/-- **C2 counterexample.**  Decoding `[Position_4, Tempo_130]`
(`ticks_per_sample = 4`) records the single real tempo entry at tick 16, yet
finalization outputs it at tick 0: `tempo_changes[0].time = 0` runs
unconditionally after the sentinel is deleted, so the first real entry is
*not* kept as recorded, refuting the claim. -/
theorem claim_c2_counterexample :
    (scanTokens sampleDecCtx [.position 4, .tempo 130]).tempoChanges
      = [⟨TEMPO, -1⟩, ⟨130, 16⟩] ∧
    decodedTempoChanges sampleDecCtx [.position 4, .tempo 130] = [⟨130, 0⟩] ∧
    decodedTempoChanges sampleDecCtx [.position 4, .tempo 130] ≠ [⟨130, 16⟩] := by
  exact ⟨by decide, by decide, by decide⟩

/-- **C2 amended.**  At finalization the sentinel entry is dropped exactly
when at least one real entry was recorded, and the *first remaining* entry —
sentinel or real — is always retimed to tick 0; only the entries after the
first keep their recorded ticks.  Stated for both the tempo and the
time-signature lists: the head of the final timeline is at tick 0, its length
is `max 1 (recorded - 1)`, and its tail is the recorded list with the
sentinel and the first real entry removed. -/
theorem claim_c2_finalization (c : DecCtx) (toks : List Tok) :
    ((decodedTempoChanges c toks).map (·.time)).head? = some 0 ∧
    (decodedTempoChanges c toks).length
      = max 1 ((scanTokens c toks).tempoChanges.length - 1) ∧
    (decodedTempoChanges c toks).tail
      = (scanTokens c toks).tempoChanges.drop 2 ∧
    ((decodedTimeSigChanges c toks).map (·.time)).head? = some 0 ∧
    (decodedTimeSigChanges c toks).length
      = max 1 ((scanTokens c toks).timeSigChanges.length - 1) ∧
    (decodedTimeSigChanges c toks).tail
      = (scanTokens c toks).timeSigChanges.drop 2 := by
  obtain ⟨t, ht⟩ := scanTokens_tempo_shape c toks
  obtain ⟨s, hs⟩ := scanTokens_timeSig_shape c toks
  have h1 := finalizeTempo_spec (scanTokens c toks).tempoChanges (by rw [ht]; simp)
  have h2 := finalizeTimeSig_spec (scanTokens c toks).timeSigChanges (by rw [hs]; simp)
  exact ⟨h1.1, h1.2.1, h1.2.2, h2.1, h2.2.1, h2.2.2⟩

/-- **C4 counterexample.**  `c4Toks` carries three pairwise-distinct `Tempo`
tokens, yet the decoded tempo timeline's ticks are `[0, 16, 8]`: the
`Position` tokens move `current_tick` backwards within the bar, so the
recorded ticks are not nondecreasing in list order (here shown on the actual
`tokens_to_midi` output, which the complete note run in `c4Toks` makes
available). -/
theorem claim_c4_counterexample :
    (tempoValues c4Toks).Pairwise (· ≠ ·) ∧
    (tokensToMidi sampleDecCtx c4Toks).map (fun m => m.tempoChanges.map (·.time))
      = some [0, 16, 8] ∧
    ¬ List.Pairwise (· ≤ ·)
        ((decodedTempoChanges sampleDecCtx c4Toks).map (·.time)) := by
  exact ⟨by decide, by decide, by decide⟩

/-- **C5 counterexample.**  In `c5Toks` the `Pitch` token sits at index 0, so
per the claim the lookback `tokens[ti - 1]` runs past the sequence bounds and
the candidate note should be silently discarded.  Python instead evaluates
`tokens[-1]` — the *final* token, here `Program_5` — and the note is created
in program 5's bucket. -/
theorem claim_c5_counterexample :
    totalNotes (scanTokens sampleDecCtx c5Toks) = 1 ∧
    (scanTokens sampleDecCtx c5Toks).instruments.map (·.1) = [5] := by
  exact ⟨by decide, by decide⟩

/-- **C8 counterexample.**  With `TimeSignature` enabled the assignment
`dic["Bar"] = ["TimeSig", "Bar"]` *overwrites* the base entry instead of
extending it: `Position` is not among `Bar`'s successors, refuting the
claim's "Bar's successor set then includes Position, TimeSig and Bar". -/
theorem claim_c8_counterexample :
    "Position" ∉ dictGet (createTokenTypesGraph true false false) "Bar" ∧
    dictGet (createTokenTypesGraph true false false) "Bar"
      = ["TimeSig", "Bar"] := by
  exact ⟨by decide, by decide⟩

/-- **C8 amended.**  The token-type graph for every flag combination:
the base edges for `Position`, `Program`, `Pitch`, `Velocity`, `Duration`
are always present (with `Chord`/`Tempo` appended to `Position`'s successors
when enabled), while `Bar`'s successor list is `[Position, Bar]` when
`TimeSignature` is disabled and is *replaced* by `[TimeSig, Bar]` (removing
`Position`) when it is enabled; `TimeSig → [Position]` exists exactly when
enabled. -/
theorem claim_c8_graph :
    ∀ ts ch tp : Bool,
      dictGet (createTokenTypesGraph ts ch tp) "Bar"
        = (if ts then ["TimeSig", "Bar"] else ["Position", "Bar"]) ∧
      dictGet (createTokenTypesGraph ts ch tp) "Position"
        = ["Program"] ++ (if ch then ["Chord"] else [])
            ++ (if tp then ["Tempo"] else []) ∧
      dictGet (createTokenTypesGraph ts ch tp) "Program" = ["Pitch"] ∧
      dictGet (createTokenTypesGraph ts ch tp) "Pitch" = ["Velocity"] ∧
      dictGet (createTokenTypesGraph ts ch tp) "Velocity" = ["Duration"] ∧
      dictGet (createTokenTypesGraph ts ch tp) "Duration"
        = ["Program", "Position", "Bar"] ∧
      dictGet (createTokenTypesGraph ts ch tp) "TimeSig"
        = (if ts then ["Position"] else []) ∧
      dictGet (createTokenTypesGraph ts ch tp) "Chord"
        = (if ch then ["Position"] else []) ∧
      dictGet (createTokenTypesGraph ts ch tp) "Tempo"
        = (if tp then ["Position"] else []) := by
  intro ts ch tp
  cases ts <;> cases ch <;> cases tp <;> exact by decide

/-- **C10** (confirmed).  Whenever the token scan creates no instrument —
no `Pitch` token completes a note — the finalization's
`max([...for track in midi.instruments])` is `max([])`, which raises
(modelled `none`): `tokens_to_midi` does not return a note-less MIDI. -/
theorem claim_c10_empty_decode_raises (c : DecCtx) (toks : List Tok)
    (h : (scanTokens c toks).instruments = []) :
    tokensToMidi c toks = none := by
  simp [tokensToMidi, h, pyMax]

/-- Witness for `claim_c10_empty_decode_raises` at the empty token
sequence. -/
theorem claim_c10_witness :
    (scanTokens sampleDecCtx []).instruments = [] ∧
    tokensToMidi sampleDecCtx [] = none :=
  ⟨by decide, claim_c10_empty_decode_raises sampleDecCtx [] (by decide)⟩

/-- **C5 amended.**  A `Pitch` token at index `ti` produces exactly one new
note exactly when the token at `ti + 1` is `Velocity`, the token at `ti + 2`
is `Duration`, and the token at Python index `ti - 1` is `Program` — where at
`ti = 0` the lookback `tokens[-1]` wraps to the *last* token of the sequence
(Python negative indexing) instead of being discarded; lookahead past the end
raises `IndexError`, which is caught, and in every non-matching case the step
is a no-op, so no exception escapes (the step is a total function).  The
`Nodup` hypothesis records that the Python `instruments` dict has unique
keys. -/
theorem claim_c5_pitch_guard (c : DecCtx) (toks : List Tok) (ti : Nat)
    (st : DecState) (p : Int)
    (htok : toks.getD ti .other = .pitch p)
    (hnd : (st.instruments.map (·.1)).Nodup) :
    (∀ v lbl prog,
        pyGet toks ((ti : Int) + 1) = some (.velocity v) →
        pyGet toks ((ti : Int) + 2) = some (.duration lbl) →
        pyGet toks ((ti : Int) - 1) = some (.program prog) →
        totalNotes (decodeStep c toks ti st) = totalNotes st + 1) ∧
    (((¬ ∃ v, pyGet toks ((ti : Int) + 1) = some (.velocity v)) ∨
      (¬ ∃ lbl, pyGet toks ((ti : Int) + 2) = some (.duration lbl)) ∨
      (¬ ∃ prog, pyGet toks ((ti : Int) - 1) = some (.program prog))) →
        decodeStep c toks ti st = st) := by
  constructor
  · intro v lbl prog h1 h2 h3
    unfold decodeStep
    rw [htok]
    dsimp only
    rw [h1, h2, h3]
    dsimp only [totalNotes]
    exact sumNotes_addNote st.instruments prog _ hnd
  · intro hbad
    unfold decodeStep
    rw [htok]
    dsimp only
    split
    · rename_i v lbl prog h1 h2 h3
      rcases hbad with h | h | h
      · exact absurd ⟨v, h1⟩ h
      · exact absurd ⟨lbl, h2⟩ h
      · exact absurd ⟨prog, h3⟩ h
    · rfl

/-- Witness for `claim_c5_pitch_guard`: the `Pitch` at index 0 of `c5Toks`
satisfies the (wrapped) guard and adds one note. -/
theorem claim_c5_witness :
    c5Toks.getD 0 .other = .pitch 60 ∧
    totalNotes (decodeStep sampleDecCtx c5Toks 0 (initDecState sampleDecCtx))
      = totalNotes (initDecState sampleDecCtx) + 1 :=
  ⟨by decide,
   (claim_c5_pitch_guard sampleDecCtx c5Toks 0 (initDecState sampleDecCtx) 60
      (by decide) (by decide)).1 100 "q" 5 (by decide) (by decide) (by decide)⟩

/-- **C9** (confirmed).  The `Duration` event appended for a note is the last
of its five note events and names the bin
`durations[np.argmin(np.abs(dur_bins - duration))]`: an index of minimal
absolute tick distance to the note's `end - start`, and the least such index
when several bins are at the same distance (numpy's argmin returns the first
occurrence of the minimum). -/
theorem claim_c9_duration_bin (ctx : EncCtx) (tpb : Int) (n : NoteWP)
    (h : ctx.durBins ≠ []) :
    (encNoteBody ctx tpb n).getLast? = some
      { type := "Duration"
        value := ctx.durLabels.getD
          (durIndex ctx.durBins (n.note.end_ - n.note.start)) ""
        time := n.note.start
        desc := toString (n.note.end_ - n.note.start) ++ " ticks" } ∧
    durIndex ctx.durBins (n.note.end_ - n.note.start) < ctx.durBins.length ∧
    ∀ i, i < ctx.durBins.length →
      |ctx.durBins.getD (durIndex ctx.durBins (n.note.end_ - n.note.start)) 0
          - (n.note.end_ - n.note.start)|
        ≤ |ctx.durBins.getD i 0 - (n.note.end_ - n.note.start)| ∧
      (|ctx.durBins.getD i 0 - (n.note.end_ - n.note.start)|
          = |ctx.durBins.getD (durIndex ctx.durBins (n.note.end_ - n.note.start)) 0
              - (n.note.end_ - n.note.start)| →
        durIndex ctx.durBins (n.note.end_ - n.note.start) ≤ i) := by
  refine ⟨rfl, ?_, ?_⟩
  · have hmap : (ctx.durBins.map
        fun b => |b - (n.note.end_ - n.note.start)|) ≠ [] := by
      simpa using h
    have := (npArgmin_spec _ hmap).1
    simpa [durIndex] using this
  · intro i hi
    have hmap : (ctx.durBins.map
        fun b => |b - (n.note.end_ - n.note.start)|) ≠ [] := by
      simpa using h
    obtain ⟨hlen, hspec⟩ := npArgmin_spec _ hmap
    have hlen2 : durIndex ctx.durBins (n.note.end_ - n.note.start)
        < ctx.durBins.length := by simpa [durIndex] using hlen
    have hi2 : i < (ctx.durBins.map
        fun b => |b - (n.note.end_ - n.note.start)|).length := by simpa using hi
    obtain ⟨hmin, htie⟩ := hspec i hi2
    have e2 : (List.map (fun b => |b - (n.note.end_ - n.note.start)|)
          ctx.durBins).getD i 0
        = |ctx.durBins.getD i 0 - (n.note.end_ - n.note.start)| :=
      getD_map_of_lt _ _ _ hi
    have e1 : (List.map (fun b => |b - (n.note.end_ - n.note.start)|)
          ctx.durBins).getD
          (npArgmin (List.map (fun b => |b - (n.note.end_ - n.note.start)|)
            ctx.durBins)) 0
        = |ctx.durBins.getD (durIndex ctx.durBins (n.note.end_ - n.note.start)) 0
            - (n.note.end_ - n.note.start)| :=
      getD_map_of_lt _ _ _ hlen2
    rw [e1, e2] at hmin htie
    exact ⟨hmin, fun he => htie he⟩

/-- Witness for `claim_c9_duration_bin`: bins `[1, 2, 4]` and a 3-tick note;
bins 1 and 2 are both at distance 1 and the earlier bin (index 1) is chosen,
so the tie-break implication applies at `i = 2`. -/
theorem claim_c9_witness :
    ctx9.durBins ≠ [] ∧
    durIndex ctx9.durBins (note9.note.end_ - note9.note.start) ≤ 2 :=
  ⟨by decide,
   ((claim_c9_duration_bin ctx9 32 note9 (by decide)).2.2 2
      (by decide)).2 (by decide)⟩

theorem getD_tok_mem (l : List Tok) (ti : Nat) (h : ti < l.length) :
    l.getD ti .other ∈ l := by
  rw [List.getD_eq_getElem?_getD, List.getElem?_eq_getElem h]
  exact List.getElem_mem h

theorem drop_cons_getD (l : List Tok) (ti : Nat) (h : ti < l.length) :
    l.drop ti = l.getD ti .other :: l.drop (ti + 1) := by
  rw [List.getD_eq_getElem?_getD, List.getElem?_eq_getElem h]
  exact List.drop_eq_getElem_cons h

/-- All decoder-state components relevant to the tempo timeline are left
unchanged by any token that is not `Bar`, `Rest`, `Position` or `Tempo`. -/
theorem decodeStep_quiet (c : DecCtx) (toks : List Tok) (ti : Nat)
    (st : DecState)
    (hb : toks.getD ti .other ≠ .bar)
    (hr : ∀ b p, toks.getD ti .other ≠ .rest b p)
    (hp : ∀ i, toks.getD ti .other ≠ .position i)
    (ht : ∀ v, toks.getD ti .other ≠ .tempo v) :
    (decodeStep c toks ti st).tempoChanges = st.tempoChanges ∧
    (decodeStep c toks ti st).currentTick = st.currentTick ∧
    (decodeStep c toks ti st).currentBar = st.currentBar ∧
    (decodeStep c toks ti st).ticksPerBar = st.ticksPerBar := by
  unfold decodeStep
  cases htok : toks.getD ti Tok.other
  case bar => exact absurd htok hb
  case rest b p => exact absurd htok (hr b p)
  case position i => exact absurd htok (hp i)
  case tempo v => exact absurd htok (ht v)
  case timeSig nu de =>
    by_cases hc : nu ≠ (lastTimeSig st.timeSigChanges).numerator ∧
        de ≠ (lastTimeSig st.timeSigChanges).denominator
    · simp [hc]
    · simp [hc]
  case pitch p =>
    dsimp only
    split
    · simp
    · simp
  all_goals exact ⟨rfl, rfl, rfl, rfl⟩

/-- `decodeStep` on a `Bar` token. -/
theorem decodeStep_bar (c : DecCtx) (toks : List Tok) (ti : Nat)
    (st : DecState) (htok : toks.getD ti .other = .bar) :
    decodeStep c toks ti st
      = { st with currentBar := st.currentBar + 1
                  currentTick := (st.currentBar + 1) * st.ticksPerBar } := by
  unfold decodeStep
  rw [htok]

/-- `decodeStep` on a `Tempo` token whose value differs from the last
recorded tempo. -/
theorem decodeStep_tempo_app (c : DecCtx) (toks : List Tok) (ti : Nat)
    (st : DecState) (v : Int) (htok : toks.getD ti .other = .tempo v)
    (hne : v ≠ (lastTempo st.tempoChanges).tempo) :
    decodeStep c toks ti st
      = { st with tempoChanges := st.tempoChanges ++ [⟨v, st.currentTick⟩] } := by
  unfold decodeStep
  rw [htok]
  dsimp only
  rw [if_pos hne]

/-- The tempo-replay invariant of the decoder loop: starting from a state
whose `current_tick` is bounded by the next bar boundary, over a suffix with
no `Position`/`Rest` tokens whose `Tempo` values extend the last recorded
tempo to a chain of consecutively distinct values, the loop appends exactly
one `TempoChange` per `Tempo` token, at nondecreasing nonnegative ticks. -/
theorem decodeFrom_tempo_replay (c : DecCtx) (toks : List Tok)
    (hnp : ∀ t ∈ toks, t.isPos = false ∧ t.isRest = false) :
    ∀ fuel ti st,
      toks.length ≤ fuel + ti →
      0 < st.ticksPerBar →
      -1 ≤ st.currentBar →
      0 ≤ st.currentTick →
      st.currentTick ≤ (st.currentBar + 1) * st.ticksPerBar →
      (lastTempo st.tempoChanges).time ≤ st.currentTick →
      List.Chain' (· ≠ ·)
        ((lastTempo st.tempoChanges).tempo :: tempoValues (toks.drop ti)) →
      ∃ tail,
        (decodeFrom c toks fuel ti st).tempoChanges
          = st.tempoChanges ++ tail ∧
        tail.map (·.tempo) = tempoValues (toks.drop ti) ∧
        List.Chain' (· ≤ ·)
          ((lastTempo st.tempoChanges).time :: tail.map (·.time)) ∧
        ∀ e ∈ tail, 0 ≤ e.time := by
  intro fuel
  induction fuel with
  | zero =>
      intro ti st hlen htpb hbar htick hbound hlast _
      have hdrop : toks.drop ti = [] :=
        List.drop_eq_nil_of_le (by omega)
      refine ⟨[], by simp [decodeFrom], by simp [tempoValues, hdrop], ?_, by simp⟩
      simp [List.chain'_singleton]
  | succ fuel IH =>
      intro ti st hlen htpb hbar htick hbound hlast hchain
      by_cases hti : ti < toks.length
      · have hstep_eq : decodeFrom c toks (fuel + 1) ti st
            = decodeFrom c toks fuel (ti + 1) (decodeStep c toks ti st) := by
          simp only [decodeFrom]
          rw [if_pos hti]
        have hdrop := drop_cons_getD toks ti hti
        have hnotpr := hnp _ (getD_tok_mem toks ti hti)
        rw [hstep_eq]
        cases htok : toks.getD ti Tok.other
        -- Bar
        · have hbs := decodeStep_bar c toks ti st htok
          have hvals : tempoValues (toks.drop ti)
              = tempoValues (toks.drop (ti + 1)) := by
            rw [hdrop, htok]
            simp [tempoValues]
          obtain ⟨tail, h1, h2, h3, h4⟩ :=
            IH (ti + 1) (decodeStep c toks ti st)
              (by omega)
              (by rw [hbs]; exact htpb)
              (by rw [hbs]; dsimp; omega)
              (by rw [hbs]; dsimp
                  exact mul_nonneg (by omega) (le_of_lt htpb))
              (by rw [hbs]; dsimp
                  exact mul_le_mul_of_nonneg_right (by omega) (le_of_lt htpb))
              (by rw [hbs]; dsimp
                  exact le_trans hlast hbound)
              (by rw [hbs, ← hvals]; exact hchain)
          rw [hbs] at h1 h3
          rw [hbs]
          refine ⟨tail, ?_, ?_, ?_, h4⟩
          · simpa using h1
          · rw [h2, ← hvals]
          · simpa using h3
        -- Rest: excluded
        · exact absurd hnotpr.2 (by rw [htok]; simp [Tok.isRest])
        -- Position: excluded
        · exact absurd hnotpr.1 (by rw [htok]; simp [Tok.isPos])
        -- Tempo
        · rename_i v
          have hvals : tempoValues (toks.drop ti)
              = v :: tempoValues (toks.drop (ti + 1)) := by
            rw [hdrop, htok]
            simp [tempoValues]
          rw [hvals] at hchain
          have hne : v ≠ (lastTempo st.tempoChanges).tempo :=
            fun he => (List.chain'_cons.mp hchain).1 he.symm
          have hbs := decodeStep_tempo_app c toks ti st v htok hne
          have hlast2 : lastTempo (decodeStep c toks ti st).tempoChanges
              = ⟨v, st.currentTick⟩ := by
            rw [hbs]
            exact List.getLastD_concat _ _ _
          obtain ⟨tail, h1, h2, h3, h4⟩ :=
            IH (ti + 1) (decodeStep c toks ti st)
              (by omega)
              (by rw [hbs]; exact htpb)
              (by rw [hbs]; exact hbar)
              (by rw [hbs]; exact htick)
              (by rw [hbs]; exact hbound)
              (by rw [hlast2, hbs])
              (by rw [hlast2]
                  exact (List.chain'_cons.mp hchain).2)
          rw [hbs] at h1
          rw [hlast2] at h3
          rw [hbs]
          refine ⟨⟨v, st.currentTick⟩ :: tail, ?_, ?_, ?_, ?_⟩
          · simpa using h1
          · rw [hvals]
            simpa using h2
          · simp only [List.map_cons]
            exact List.chain'_cons.mpr ⟨hlast, h3⟩
          · intro e he
            rcases List.mem_cons.mp he with he | he
            · rw [he]
              exact htick
            · exact h4 e he
        -- TimeSig, Pitch, Velocity, Duration, Program, Other: quiet steps
        all_goals {
          have hq := decodeStep_quiet c toks ti st
            (by rw [htok]; simp)
            (by intro b p; rw [htok]; simp)
            (by intro i; rw [htok]; simp)
            (by intro v; rw [htok]; simp)
          have hvals : tempoValues (toks.drop ti)
              = tempoValues (toks.drop (ti + 1)) := by
            rw [hdrop, htok]
            simp [tempoValues]
          obtain ⟨tail, h1, h2, h3, h4⟩ :=
            IH (ti + 1) (decodeStep c toks ti st)
              (by omega)
              (by rw [hq.2.2.2]; exact htpb)
              (by rw [hq.2.2.1]; exact hbar)
              (by rw [hq.2.1]; exact htick)
              (by rw [hq.2.1, hq.2.2.1, hq.2.2.2]; exact hbound)
              (by rw [hq.1, hq.2.1]; exact hlast)
              (by rw [hq.1, ← hvals]; exact hchain)
          rw [hq.1] at h1 h3
          refine ⟨tail, h1, ?_, h3, h4⟩
          rw [h2, ← hvals] }
      · have hstop : decodeFrom c toks (fuel + 1) ti st = st := by
          simp only [decodeFrom]
          rw [if_neg hti]
        have hdrop : toks.drop ti = [] :=
          List.drop_eq_nil_of_le (by omega)
        refine ⟨[], by simp [hstop], by simp [tempoValues, hdrop], ?_, by simp⟩
        simp [List.chain'_singleton]

/-- **C4 amended.**  The claim fails in two ways: a `Tempo` token whose value
equals the default sentinel tempo is not appended, and `Position` (or `Rest`)
tokens can move `current_tick` backwards, breaking monotonicity (see the
counterexample).  For every token sequence without `Position` and `Rest`
tokens whose `k` `Tempo` tokens have pairwise-distinct values, each different
from the default tempo `TEMPO`: the decoded tempo timeline has length `k`
when `k ≥ 1` (and is the single retimed tick-0 default entry when `k = 0`),
its values are exactly the `Tempo` token values in order, and its ticks are
nondecreasing in list order. -/
theorem claim_c4_tempo_replay (c : DecCtx) (toks : List Tok)
    (htd : 0 < c.timeDivision)
    (hnp : ∀ t ∈ toks, t.isPos = false ∧ t.isRest = false)
    (hdist : (tempoValues toks).Pairwise (· ≠ ·))
    (hne : ∀ v ∈ tempoValues toks, v ≠ TEMPO) :
    (decodedTempoChanges c toks).length
      = (if (tempoValues toks).length = 0 then 1
         else (tempoValues toks).length) ∧
    (decodedTempoChanges c toks).map (·.tempo)
      = (if tempoValues toks = [] then [TEMPO] else tempoValues toks) ∧
    List.Pairwise (· ≤ ·) ((decodedTempoChanges c toks).map (·.time)) := by
  have hl0 : lastTempo (initDecState c).tempoChanges = ⟨TEMPO, -1⟩ := rfl
  have hchain0 : List.Chain' (· ≠ ·) (TEMPO :: tempoValues toks) :=
    List.chain'_cons'.mpr
      ⟨fun y hy => (hne y (List.mem_of_mem_head? hy)).symm, hdist.chain'⟩
  obtain ⟨tail, h1, h2, h3, h4⟩ :=
    decodeFrom_tempo_replay c toks hnp toks.length 0 (initDecState c)
      (by omega)
      (mul_pos htd (by norm_num [TIME_SIGNATURE]))
      (by simp [initDecState])
      (by simp [initDecState])
      (by simp [initDecState])
      (by rw [hl0]; norm_num [initDecState])
      (by rw [hl0, List.drop_zero]; exact hchain0)
  rw [List.drop_zero] at h2
  rw [hl0] at h3
  have hscan : (scanTokens c toks).tempoChanges = ⟨TEMPO, -1⟩ :: tail := by
    simpa [initDecState] using h1
  have hfin : decodedTempoChanges c toks
      = finalizeTempo (⟨TEMPO, -1⟩ :: tail) := by
    unfold decodedTempoChanges
    rw [hscan]
  cases tail with
  | nil =>
      have hv : tempoValues toks = [] := by simpa using h2.symm
      rw [hfin]
      refine ⟨?_, ?_, ?_⟩ <;> simp [finalizeTempo, hv, TEMPO]
  | cons x r =>
      have hv : tempoValues toks = x.tempo :: r.map (·.tempo) := by
        simpa using h2.symm
      have hlen2 : 1 < ((⟨TEMPO, -1⟩ :: x :: r : List DTempo)).length := by
        simp
      have hf : finalizeTempo (⟨TEMPO, -1⟩ :: x :: r)
          = { x with time := 0 } :: r := by
        unfold finalizeTempo
        rw [if_pos hlen2]
        rfl
      rw [hfin, hf]
      refine ⟨?_, ?_, ?_⟩
      · simp [hv]
      · simp [hv]
      · have hch1 : List.Chain' (· ≤ ·)
            (x.time :: r.map (·.time)) := by
          have := (List.chain'_cons'.mp h3).2
          simpa using this
        have hch2 : List.Chain' (· ≤ ·) (r.map (·.time)) :=
          (List.chain'_cons'.mp hch1).2
        have hhead : ∀ y ∈ (r.map (·.time)).head?, (0 : Int) ≤ y := by
          intro y hy
          obtain ⟨e, he, hey⟩ := List.mem_map.mp (List.mem_of_mem_head? hy)
          rw [← hey]
          exact h4 e (List.mem_cons_of_mem _ he)
        have : List.Chain' (· ≤ ·) ((0 : Int) :: r.map (·.time)) :=
          List.chain'_cons'.mpr ⟨hhead, hch2⟩
        simpa using List.chain'_iff_pairwise.mp this

/-- Witness for `claim_c4_tempo_replay` at a three-token sequence with two
distinct non-default tempos. -/
theorem claim_c4_witness :
    (0 : Int) < sampleDecCtx.timeDivision ∧
    (decodedTempoChanges sampleDecCtx [.tempo 130, .bar, .tempo 140]).map (·.tempo)
      = (if tempoValues [.tempo 130, .bar, .tempo 140] = [] then [TEMPO]
         else tempoValues [.tempo 130, .bar, .tempo 140]) :=
  ⟨by decide,
   (claim_c4_tempo_replay sampleDecCtx [.tempo 130, .bar, .tempo 140]
      (by decide) (by decide) (by decide) (by decide)).2.1⟩

theorem countP_barEvents (nBars : Bool) (cb tpb nb : Int) :
    (barEvents nBars cb tpb nb).countP (fun e => e.type == "Bar")
      = nb.toNat := by
  simp [barEvents, List.countP_map, Function.comp_def]

/-- **C7** (confirmed).  Whenever a note's encoding step emits no new `Bar`
event — in particular when `nb_new_bars = 0`, or when the note is not at a
new time step at all — the step emits no `TimeSig` and no `Tempo` event:
both are gated by `nb_new_bars > 0`, so tempo or time-signature changes that
fall strictly inside a bar are never tokenized. -/
theorem claim_c7_no_midbar_tempo (ctx : EncCtx) (st : EncState) (n : NoteWP)
    (hno : ((encStep ctx st n).1.countP (fun e => e.type == "Bar")) = 0) :
    ∀ e ∈ (encStep ctx st n).1, e.type ≠ "TimeSig" ∧ e.type ≠ "Tempo" := by
  by_cases hs : n.note.start ≠ st.previousTick
  · by_cases hnb : Int.fdiv n.note.start st.ticksPerBar - st.currentBar > 0
    · exfalso
      by_cases hts : ctx.useTimeSignature <;> by_cases htp : ctx.useTempo <;>
        simp [encStep, hs, hts, htp, hnb, countP_barEvents, encNoteBody]
          at hno <;>
        omega
    · by_cases hts : ctx.useTimeSignature <;> by_cases htp : ctx.useTempo <;>
        simp [encStep, hs, hts, htp, hnb, barEvents,
          show (Int.fdiv n.note.start st.ticksPerBar - st.currentBar).toNat = 0
            by omega, encNoteBody]
  · simp [encStep, hs, encNoteBody]

/-- Witness for `claim_c7_no_midbar_tempo`: with `TimeSignature` and `Tempo`
enabled, a note at a new time step inside the current bar
(`nb_new_bars = 0`) emits only its five note events. -/
theorem claim_c7_witness :
    ((encStep ctxFull stMid noteMid).1.countP (fun e => e.type == "Bar")) = 0 ∧
    (⟨"Position", "1", 5, "NotePosition"⟩ : Event).type ≠ "TimeSig" :=
  ⟨by decide,
   (claim_c7_no_midbar_tempo ctxFull stMid noteMid (by decide)
      ⟨"Position", "1", 5, "NotePosition"⟩ (by decide)).1⟩

theorem filter_orderedInsert (p : Event → Bool)
    (hp : ∀ a b, p a = true → p b = true → evLe a b) :
    ∀ (a : Event) (l : List Event),
      (List.orderedInsert evLe a l).filter p
        = if p a then a :: l.filter p else l.filter p
  | a, [] => by
      by_cases hpa : p a <;> simp [List.orderedInsert, List.filter, hpa]
  | a, b :: l => by
      by_cases hab : evLe a b
      · rw [List.orderedInsert_of_le _ _ hab]
        simp [List.filter_cons]
      · simp only [List.orderedInsert, if_neg hab]
        by_cases hpa : p a
        · have hpb : p b = false := by
            by_contra hcon
            exact hab (hp a b hpa (by simpa using hcon))
          simp [List.filter_cons, hpa, hpb, filter_orderedInsert p hp a l]
        · have hpaf : p a = false := by simpa using hpa
          simp [List.filter_cons, hpaf, filter_orderedInsert p hp a l]

theorem filter_insertionSort (p : Event → Bool)
    (hp : ∀ a b, p a = true → p b = true → evLe a b) :
    ∀ l : List Event,
      (List.insertionSort evLe l).filter p = l.filter p
  | [] => rfl
  | a :: l => by
      simp only [List.insertionSort]
      rw [filter_orderedInsert p hp a (List.insertionSort evLe l)]
      by_cases hpa : p a <;>
        simp [List.filter_cons, hpa, filter_insertionSort p hp l]

/-- **C6** (confirmed).  The encoder's output is the stable sort of the
constructed events by the key `(time, _order)`:
(a) `notesToEvents` is by definition the stable sort of `rawEvents`;
(b) `_order` realizes the rank table Bar 0 < TimeSig 1 < tempo-anchored
Position 2 < Tempo 3 < chord-anchored Position 4 < Chord 5 < Rest 7 < all
note-related events 8 (note Position, Program, Pitch, Velocity, Duration);
(c) the sort is sorted under the key order;
(d) the sort is stable: events of equal key keep their construction order
(their `filter` is unchanged) — with (f) this gives that each note's own
Position, constructed immediately before its Program/Pitch/Velocity/Duration
quadruple at the same key `(start, 8)`, precedes the quadruple in the output;
(e) hence at equal ticks a tempo-anchored Position event never precedes a
`Bar` event — Bar always serializes first regardless of construction order;
(f) the five note events of each note, in construction order. -/
theorem claim_c6_stable_sort :
    (∀ (ctx : EncCtx) (notes : List NoteWP) (ch : Option (List Event)),
      notesToEvents ctx notes ch
        = List.insertionSort evLe (rawEvents ctx notes ch)) ∧
    ((∀ v t d, orderOf ⟨"Bar", v, t, d⟩ = 0) ∧
     (∀ v t d, orderOf ⟨"TimeSig", v, t, d⟩ = 1) ∧
     (∀ v t, orderOf ⟨"Position", v, t, "TempoPosition"⟩ = 2) ∧
     (∀ v t d, orderOf ⟨"Tempo", v, t, d⟩ = 3) ∧
     (∀ v t, orderOf ⟨"Position", v, t, "ChordPosition"⟩ = 4) ∧
     (∀ v t d, orderOf ⟨"Chord", v, t, d⟩ = 5) ∧
     (∀ v t d, orderOf ⟨"Rest", v, t, d⟩ = 7) ∧
     (∀ v t, orderOf ⟨"Position", v, t, "NotePosition"⟩ = 8) ∧
     (∀ v t d, orderOf ⟨"Program", v, t, d⟩ = 8) ∧
     (∀ v t d, orderOf ⟨"Pitch", v, t, d⟩ = 8) ∧
     (∀ v t d, orderOf ⟨"Velocity", v, t, d⟩ = 8) ∧
     (∀ v t d, orderOf ⟨"Duration", v, t, d⟩ = 8)) ∧
    (∀ l : List Event, List.Sorted evLe (List.insertionSort evLe l)) ∧
    (∀ (l : List Event) (t : Int) (k : Nat),
      (List.insertionSort evLe l).filter
          (fun e => e.time == t && orderOf e == k)
        = l.filter (fun e => e.time == t && orderOf e == k)) ∧
    (∀ (l : List Event) (i j : Nat) (a b : Event),
      i < j →
      (List.insertionSort evLe l).get? i = some a →
      (List.insertionSort evLe l).get? j = some b →
      a.time = b.time → a.type = "Position" → a.desc = "TempoPosition" →
      b.type ≠ "Bar") ∧
    (∀ (ctx : EncCtx) (tpb : Int) (n : NoteWP),
      encNoteBody ctx tpb n
        = [⟨"Position", toString (posIndex n.note.start tpb ctx.ticksPerSample),
              n.note.start, "NotePosition"⟩,
           ⟨"Program", toString (if n.isDrum then (-1 : Int) else n.program),
              n.note.start, toString n.note.pitch⟩,
           ⟨"Pitch", toString n.note.pitch, n.note.start,
              toString n.note.pitch⟩,
           ⟨"Velocity", toString n.note.velocity, n.note.start,
              toString n.note.velocity⟩,
           ⟨"Duration",
              ctx.durLabels.getD
                (durIndex ctx.durBins (n.note.end_ - n.note.start)) "",
              n.note.start,
              toString (n.note.end_ - n.note.start) ++ " ticks"⟩]) := by
  refine ⟨fun _ _ _ => rfl, ?_, ?_, ?_, ?_, fun _ _ _ => rfl⟩
  · refine ⟨?_, ?_, ?_, ?_, ?_, ?_, ?_, ?_, ?_, ?_, ?_, ?_⟩ <;>
      (first
        | exact fun v t d => by simp [orderOf]
        | exact fun v t => by simp [orderOf])
  · exact fun l => List.sorted_insertionSort evLe l
  · intro l t k
    apply filter_insertionSort
    intro a b ha hb
    have ha2 : a.time = t ∧ orderOf a = k := by simpa using ha
    have hb2 : b.time = t ∧ orderOf b = k := by simpa using hb
    exact Or.inr ⟨by rw [ha2.1, hb2.1], by rw [ha2.2, hb2.2]⟩
  · intro l i j a b hij h1 h2 htime hty hde hbar
    obtain ⟨hi, hga⟩ := List.get?_eq_some.mp h1
    obtain ⟨hj, hgb⟩ := List.get?_eq_some.mp h2
    have hord := List.pairwise_iff_get.mp
      (List.sorted_insertionSort evLe l) ⟨i, hi⟩ ⟨j, hj⟩ hij
    rw [hga, hgb] at hord
    have hoa : orderOf a = 2 := by simp [orderOf, hty, hde]
    have hob : orderOf b = 0 := by simp [orderOf, hbar]
    rcases hord with hlt | ⟨_, hle⟩
    · exact absurd htime (ne_of_lt hlt)
    · rw [hoa, hob] at hle
      omega

/-- Witness for `claim_c6_stable_sort`: a tempo-anchored Position event and a
Tempo event at the same tick; the sorted pair instantiates the tie-break
conjunct. -/
theorem claim_c6_witness :
    (0 : Nat) < 1 ∧
    (List.insertionSort evLe [evTP, evTm]).get? 0 = some evTP ∧
    (List.insertionSort evLe [evTP, evTm]).get? 1 = some evTm ∧
    evTm.type ≠ "Bar" :=
  ⟨Nat.zero_lt_one, by decide, by decide,
   claim_c6_stable_sort.2.2.2.2.1 [evTP, evTm] 0 1 evTP evTm Nat.zero_lt_one
     (by decide) (by decide) (by decide) (by decide) (by decide)⟩

theorem insertionSort_append_dom :
    ∀ (l₁ l₂ : List Event),
      l₁.Pairwise evLe → (∀ a ∈ l₁, ∀ b ∈ l₂, evLe a b) →
      List.insertionSort evLe (l₁ ++ l₂)
        = l₁ ++ List.insertionSort evLe l₂
  | [], l₂, _, _ => by simp
  | a :: t, l₂, h₁, h₂ => by
      have ht : List.insertionSort evLe (t ++ l₂)
          = t ++ List.insertionSort evLe l₂ :=
        insertionSort_append_dom t l₂ (List.pairwise_cons.mp h₁).2
          (fun x hx b hb => h₂ x (List.mem_cons_of_mem _ hx) b hb)
      have hall : ∀ b ∈ t ++ l₂, evLe a b := by
        intro b hb
        rcases List.mem_append.mp hb with hb | hb
        · exact (List.pairwise_cons.mp h₁).1 b hb
        · exact h₂ a (List.mem_cons_self a t) b hb
      calc List.insertionSort evLe ((a :: t) ++ l₂)
          = List.insertionSort evLe (a :: (t ++ l₂)) := by simp
        _ = a :: List.insertionSort evLe (t ++ l₂) :=
            List.insertionSort_cons evLe hall
        _ = a :: (t ++ List.insertionSort evLe l₂) := by rw [ht]
        _ = (a :: t) ++ List.insertionSort evLe l₂ := rfl

theorem encStep_flagsOff (ctx : EncCtx) (st : EncState) (n : NoteWP)
    (hts : ctx.useTimeSignature = false) (htp : ctx.useTempo = false)
    (hs : n.note.start ≠ st.previousTick) :
    encStep ctx st n
      = (barEvents ctx.numBars st.currentBar st.ticksPerBar
           (Int.fdiv n.note.start st.ticksPerBar - st.currentBar)
         ++ encNoteBody ctx st.ticksPerBar n,
         { st with
             currentBar := st.currentBar
               + (Int.fdiv n.note.start st.ticksPerBar - st.currentBar)
             previousTick := n.note.start
             previousNoteEnd := max st.previousNoteEnd n.note.end_ }) := by
  simp [encStep, hs, hts, htp]

theorem encStep_same_tick (ctx : EncCtx) (st : EncState) (n : NoteWP)
    (hs : ¬ n.note.start ≠ st.previousTick) :
    encStep ctx st n
      = (encNoteBody ctx st.ticksPerBar n,
         { st with previousNoteEnd := max st.previousNoteEnd n.note.end_ }) := by
  simp [encStep, hs]

theorem encNoteBody_dom (ctx : EncCtx) (tpb2 : Int) (n : NoteWP) (e : Event)
    (he : e ∈ encNoteBody ctx tpb2 n) :
    e.time = n.note.start ∧ orderOf e = 8 := by
  simp [encNoteBody] at he
  rcases he with rfl | rfl | rfl | rfl | rfl <;> exact ⟨rfl, by simp [orderOf]⟩

theorem encNoteBody_pairwise (ctx : EncCtx) (tpb2 : Int) (n : NoteWP) :
    (encNoteBody ctx tpb2 n).Pairwise evLe := by
  apply List.pairwise_of_forall_mem_list
  intro e he f hf
  obtain ⟨het, heo⟩ := encNoteBody_dom ctx tpb2 n e he
  obtain ⟨hft, hfo⟩ := encNoteBody_dom ctx tpb2 n f hf
  exact Or.inr ⟨by rw [het, hft], by rw [heo, hfo]⟩

theorem barEvents_mem (nBars : Bool) (cb tpb nb : Int) (e : Event)
    (he : e ∈ barEvents nBars cb tpb nb) :
    ∃ i : Nat, (i : Int) < nb ∧ e.time = (cb + (i : Int) + 1) * tpb ∧
      e.type = "Bar" := by
  simp [barEvents] at he
  obtain ⟨i, hi, rfl⟩ := he
  exact ⟨i, by omega, rfl, rfl⟩

theorem encSteps_dominated (ctx : EncCtx) (hts : ctx.useTimeSignature = false)
    (htp : ctx.useTempo = false) (tpb : Int) (htpb : 0 < tpb) (N : Int) :
    ∀ (notes : List NoteWP) (st : EncState),
      st.ticksPerBar = tpb →
      N ≤ st.currentBar →
      (∀ m ∈ notes, N * tpb ≤ m.note.start) →
      ∀ e ∈ (encSteps ctx notes st).1,
        N * tpb < e.time ∨ (e.time = N * tpb ∧ orderOf e = 8)
  | [], _, _, _, _ => by simp [encSteps]
  | m :: restN, st, htpbs, hbarN, hmem => by
      intro e he
      simp only [encSteps] at he
      by_cases hs : m.note.start ≠ st.previousTick
      · rw [encStep_flagsOff ctx st m hts htp hs] at he
        simp only [List.mem_append] at he
        rcases he with (he | he) | he
        · obtain ⟨i, _, htime, _⟩ := barEvents_mem _ _ _ _ e he
          rw [htpbs] at htime
          exact Or.inl (htime ▸ mul_lt_mul_of_pos_right (by omega) htpb)
        · obtain ⟨htime, ho⟩ := encNoteBody_dom _ _ _ e he
          rcases lt_or_eq_of_le (hmem m (List.mem_cons_self m restN)) with h | h
          · exact Or.inl (htime ▸ h)
          · exact Or.inr ⟨htime.trans h.symm, ho⟩
        · have hbar2 : N ≤ st.currentBar
              + (Int.fdiv m.note.start st.ticksPerBar - st.currentBar) := by
            have : N ≤ Int.fdiv m.note.start st.ticksPerBar := by
              rw [htpbs, Int.fdiv_eq_ediv _ (le_of_lt htpb)]
              exact (Int.le_ediv_iff_mul_le htpb).mpr
                (hmem m (List.mem_cons_self m restN))
            omega
          refine encSteps_dominated ctx hts htp tpb htpb N restN _
            ?_ ?_ (fun x hx => hmem x (List.mem_cons_of_mem _ hx)) e he
          · exact htpbs
          · exact hbar2
      · rw [encStep_same_tick ctx st m hs] at he
        simp only [List.mem_append] at he
        rcases he with he | he
        · obtain ⟨htime, ho⟩ := encNoteBody_dom _ _ _ e he
          rcases lt_or_eq_of_le (hmem m (List.mem_cons_self m restN)) with h | h
          · exact Or.inl (htime ▸ h)
          · exact Or.inr ⟨htime.trans h.symm, ho⟩
        · refine encSteps_dominated ctx hts htp tpb htpb N restN _
            ?_ ?_ (fun x hx => hmem x (List.mem_cons_of_mem _ hx)) e he
          · exact htpbs
          · exact hbarN

/-- **C3 amended.**  With the optional families disabled and a sorted input
whose first note starts exactly at the start of bar `N` (so bars
`0 .. N - 1` are empty), the encoder's output begins with exactly `N + 1`
consecutive `Bar` events — `current_bar` starts at `-1`, so the catch-up run
covers bars `0 .. N`, one per elapsed bar boundary including bar 0's — with
sequential bar indices (the placeholder value when `num_bars` is not
configured) at ticks `i * ticks_per_bar`, immediately followed by that
note's own `Position` event. -/
theorem claim_c3_bar_runs (ctx : EncCtx) (n : NoteWP) (restN : List NoteWP)
    (N : Nat)
    (htd : 0 < ctx.timeDivision)
    (hts : ctx.useTimeSignature = false) (htp : ctx.useTempo = false)
    (hstart : n.note.start = (N : Int) * (ctx.timeDivision * 4))
    (hsorted : ∀ m ∈ restN, n.note.start ≤ m.note.start) :
    (notesToEvents ctx (n :: restN) none).take (N + 2)
      = (List.range (N + 1)).map (fun (i : Nat) =>
          (⟨"Bar", if ctx.numBars then toString (i : Int) else "None",
            (i : Int) * (ctx.timeDivision * 4), "0"⟩ : Event))
        ++ [⟨"Position",
             toString (posIndex n.note.start (ctx.timeDivision * 4)
               ctx.ticksPerSample),
             n.note.start, "NotePosition"⟩] := by
  have htpb : (0 : Int) < ctx.timeDivision * 4 := by positivity
  have hge : (0 : Int) ≤ n.note.start := by
    rw [hstart]
    exact mul_nonneg (Int.natCast_nonneg N) (le_of_lt htpb)
  have hs : n.note.start ≠ (initEncState ctx (n :: restN)).previousTick := by
    show n.note.start ≠ -1
    omega
  have hnb : Int.fdiv n.note.start
        (initEncState ctx (n :: restN)).ticksPerBar
        - (initEncState ctx (n :: restN)).currentBar = (N : Int) + 1 := by
    show Int.fdiv n.note.start (ctx.timeDivision * 4) - (-1) = (N : Int) + 1
    rw [hstart, Int.mul_fdiv_cancel _ (ne_of_gt htpb)]
    ring
  have hstep := encStep_flagsOff ctx (initEncState ctx (n :: restN)) n hts htp hs
  rw [hnb] at hstep
  have hEv : (encStep ctx (initEncState ctx (n :: restN)) n).1
      = barEvents ctx.numBars (-1) (ctx.timeDivision * 4) ((N : Int) + 1)
        ++ encNoteBody ctx (ctx.timeDivision * 4) n := by
    rw [hstep]
    rfl
  have hA : (encStep ctx (initEncState ctx (n :: restN)) n).2.ticksPerBar
      = ctx.timeDivision * 4 := by
    rw [hstep]
    rfl
  have hB : (N : Int)
      ≤ (encStep ctx (initEncState ctx (n :: restN)) n).2.currentBar := by
    rw [hstep]
    show (N : Int) ≤ -1 + ((N : Int) + 1)
    omega
  have hmem2 : ∀ m ∈ restN,
      (N : Int) * (ctx.timeDivision * 4) ≤ m.note.start :=
    fun m hm => hstart ▸ hsorted m hm
  have hdom := encSteps_dominated ctx hts htp (ctx.timeDivision * 4) htpb
    (N : Int) restN (encStep ctx (initEncState ctx (n :: restN)) n).2
    hA hB hmem2
  -- bounds on the first step's events
  have hl₁ : ∀ a ∈ barEvents ctx.numBars (-1) (ctx.timeDivision * 4)
        ((N : Int) + 1) ++ encNoteBody ctx (ctx.timeDivision * 4) n,
      a.time ≤ (N : Int) * (ctx.timeDivision * 4) ∧ orderOf a ≤ 8 := by
    intro a ha
    rcases List.mem_append.mp ha with ha | ha
    · obtain ⟨i, hi, htime, hty⟩ := barEvents_mem _ _ _ _ a ha
      constructor
      · rw [htime]
        exact mul_le_mul_of_nonneg_right (by omega) (le_of_lt htpb)
      · simp [orderOf, hty]
    · obtain ⟨htime, ho⟩ := encNoteBody_dom _ _ _ a ha
      exact ⟨by rw [htime, hstart], by rw [ho]⟩
  have hpw : (barEvents ctx.numBars (-1) (ctx.timeDivision * 4)
        ((N : Int) + 1) ++ encNoteBody ctx (ctx.timeDivision * 4) n).Pairwise
        evLe := by
    rw [List.pairwise_append]
    refine ⟨?_, encNoteBody_pairwise ctx _ n, ?_⟩
    · rw [barEvents, List.pairwise_map]
      refine (List.pairwise_lt_range _).imp ?_
      intro i j hij
      refine Or.inl ?_
      show ((-1 : Int) + i + 1) * (ctx.timeDivision * 4)
          < ((-1 : Int) + j + 1) * (ctx.timeDivision * 4)
      exact mul_lt_mul_of_pos_right (by omega) htpb
    · intro a ha b hb
      obtain ⟨i, hi, htime, hty⟩ := barEvents_mem _ _ _ _ a ha
      obtain ⟨htb, hob⟩ := encNoteBody_dom _ _ _ b hb
      have hao : orderOf a = 0 := by simp [orderOf, hty]
      have hle : a.time ≤ b.time := by
        rw [htime, htb, hstart]
        exact mul_le_mul_of_nonneg_right (by omega) (le_of_lt htpb)
      rcases lt_or_eq_of_le hle with h | h
      · exact Or.inl h
      · exact Or.inr ⟨h, by rw [hao, hob]; omega⟩
  have hcross : ∀ a ∈ barEvents ctx.numBars (-1) (ctx.timeDivision * 4)
        ((N : Int) + 1) ++ encNoteBody ctx (ctx.timeDivision * 4) n,
      ∀ b ∈ (encSteps ctx restN
        (encStep ctx (initEncState ctx (n :: restN)) n).2).1, evLe a b := by
    intro a ha b hb
    obtain ⟨hale, hao⟩ := hl₁ a ha
    rcases hdom b hb with h | ⟨h1, h2⟩
    · exact Or.inl (lt_of_le_of_lt hale h)
    · rcases lt_or_eq_of_le hale with h | h
      · exact Or.inl (h1 ▸ h)
      · exact Or.inr ⟨h.trans h1.symm, by rw [h2]; exact hao⟩
  have hraw : rawEvents ctx (n :: restN) none
      = (encStep ctx (initEncState ctx (n :: restN)) n).1
        ++ (encSteps ctx restN
              (encStep ctx (initEncState ctx (n :: restN)) n).2).1 := by
    simp [rawEvents, encSteps]
  have hsplit : notesToEvents ctx (n :: restN) none
      = (barEvents ctx.numBars (-1) (ctx.timeDivision * 4) ((N : Int) + 1)
          ++ encNoteBody ctx (ctx.timeDivision * 4) n)
        ++ List.insertionSort evLe (encSteps ctx restN
            (encStep ctx (initEncState ctx (n :: restN)) n).2).1 := by
    unfold notesToEvents
    rw [hraw, hEv]
    exact insertionSort_append_dom _ _ hpw hcross
  rw [hsplit]
  have hlen : (barEvents ctx.numBars (-1) (ctx.timeDivision * 4)
      ((N : Int) + 1)).length = N + 1 := by
    simp [barEvents]
  rw [List.append_assoc, List.take_append_eq_append_take, hlen,
    List.take_of_length_le (by rw [hlen]; omega),
    show N + 2 - (N + 1) = 1 from by omega]
  have hbody : (encNoteBody ctx (ctx.timeDivision * 4) n
      ++ List.insertionSort evLe (encSteps ctx restN
          (encStep ctx (initEncState ctx (n :: restN)) n).2).1).take 1
      = [⟨"Position",
          toString (posIndex n.note.start (ctx.timeDivision * 4)
            ctx.ticksPerSample),
          n.note.start, "NotePosition"⟩] := by
    simp [encNoteBody]
  rw [hbody]
  congr 1
  unfold barEvents
  rw [show ((N : Int) + 1).toNat = N + 1 from by omega]
  apply List.map_congr_left
  intro i hi
  have hi2 : (-1 : Int) + i + 1 = i := by ring
  rw [hi2]

/-- **C3 counterexample.**  A single note starting exactly at the start of
bar `N = 1` (tick 32, `ticks_per_bar = 32`, one empty bar before it) is
preceded by **two** `Bar` events, not the claimed `N = 1`: `current_bar`
starts at `-1`, so `nb_new_bars = 1 - (-1) = 2` and bars 0 and 1 are both
emitted. -/
theorem claim_c3_counterexample :
    ((notesToEvents ctxBase [noteBar1] none).takeWhile
        (fun e => e.type != "Position")).map (·.type) = ["Bar", "Bar"] ∧
    ((notesToEvents ctxBase [noteBar1] none).takeWhile
        (fun e => e.type != "Position")).length ≠ 1 := by
  exact ⟨by decide, by decide⟩

/-- Witness for `claim_c3_bar_runs` at `ctxBase`, one note at the start of
bar 1. -/
theorem claim_c3_witness :
    (0 : Int) < ctxBase.timeDivision ∧
    (notesToEvents ctxBase [noteBar1] none).take 3
      = (List.range 2).map (fun (i : Nat) =>
          (⟨"Bar", if ctxBase.numBars then toString (i : Int) else "None",
            (i : Int) * (ctxBase.timeDivision * 4), "0"⟩ : Event))
        ++ [⟨"Position",
             toString (posIndex noteBar1.note.start (ctxBase.timeDivision * 4)
               ctxBase.ticksPerSample),
             noteBar1.note.start, "NotePosition"⟩] :=
  ⟨by decide,
   claim_c3_bar_runs ctxBase noteBar1 [] 1 (by decide) (by decide) (by decide)
     (by decide) (by simp)⟩

end RemiPlus
